import Mathlib

/-!
Verification development for the `sill` request-orchestration library.

The development shallowly embeds the Python source:
* `Chunking` — `sill/utils/_batched.py`: `_saturating_add`, `_chunk_dates`,
  the `batched` decorator's validation and per-chunk dispatch loop.
* `Placement` — `sill/utils/_batched.py`: `_modify_signature` and
  `_find_request_kwarg`, the per-chunk argument-rewriting precedence.
* `Api` — `sill/_api.py`: the middleware fold and the GET/POST wrappers'
  call-site merge of request keyword arguments.
* `Auth` — `sill/_auth.py`: `BearerTokenMiddleware` (token validity check,
  refresh, header injection), both as a sequential state-passing function
  and as an interleaving model for two concurrent callers.
* `Persist` — the token persistence round-trip: `BaseAuthToken` written as
  JSON (`model_dump_json`, an ISO-8601 timestamp) and reparsed
  (`model_validate_json` in `BaseAuthToken.from_file`).

Python `datetime` objects are modelled by their microsecond count together
with their `utcoffset`; aware datetimes compare by instant
(`naive - offset`), while arithmetic and the overflow check act on the naive
(wall-clock) fields, exactly as in CPython.
-/

namespace Chunking

/-- Microseconds of `datetime.min` (0001-01-01T00:00:00) measured from itself. -/
def dtMinNaive : Int := 0

/-- Microseconds of `datetime.max` (9999-12-31T23:59:59.999999) from `datetime.min`:
3652058 days plus 86399.999999 seconds. -/
def dtMaxNaive : Int := 315537897599999999

/-- A Python `datetime`: `naive` is the wall-clock value in microseconds from
`datetime.min`, `off` the `utcoffset()` in microseconds (0 models a naive or
UTC datetime — within one call all comparisons are then the naive ones). -/
structure PyDT where
  naive : Int
  off : Int
deriving DecidableEq, Repr

/-- The instant an aware datetime denotes: CPython compares aware datetimes by
`dt - dt.utcoffset()`. -/
def instant (d : PyDT) : Int := d.naive - d.off

/-- Comparison `a < b` on datetimes (by instant). -/
def pyLt (a b : PyDT) : Bool := instant a < instant b

/-- Python `min(a, b)`: returns `b` exactly when `b < a`, else `a`. -/
def pyMin (a b : PyDT) : PyDT := if pyLt b a then b else a

/-- Addition `dt + delta` in CPython: acts on the naive fields, `OverflowError` (here
`none`) when the result leaves `[datetime.min, datetime.max]`. -/
def addDelta (d : PyDT) (delta : Int) : Option PyDT :=
  if dtMinNaive ≤ d.naive + delta ∧ d.naive + delta ≤ dtMaxNaive then
    some { naive := d.naive + delta, off := d.off }
  else
    none

/-- Model of `_saturating_add`: `dt + delta`, catching `OverflowError` and returning
`datetime.max.replace(tzinfo=dt.tzinfo)` (naive fields of `datetime.max`,
offset preserved). -/
def saturatingAdd (d : PyDT) (delta : Int) : PyDT :=
  match addDelta d delta with
  | some r => r
  | none => { naive := dtMaxNaive, off := d.off }

/-- The `while current_start < end` loop of `_chunk_dates`, fuelled: `none`
means the loop was still running after `fuel` iterations. Each iteration
computes `new_end = _saturating_add(current_start, chunk_size)`,
`current_end = min(new_end, end)`, yields the pair and continues from
`current_end`. -/
def chunkLoop : Nat → PyDT → PyDT → Int → Option (List (PyDT × PyDT))
  | 0, cur, e, _ => if pyLt cur e then none else some []
  | fuel + 1, cur, e, c =>
    if pyLt cur e then
      let curEnd := pyMin (saturatingAdd cur c) e
      (chunkLoop fuel curEnd e c).map (fun rest => (cur, curEnd) :: rest)
    else some []

/-- The chunks `_chunk_dates`'s loop yields within the first `fuel`
iterations (the emitted prefix of the generator's output). -/
def chunkEmit : Nat → PyDT → PyDT → Int → List (PyDT × PyDT)
  | 0, _, _, _ => []
  | fuel + 1, cur, e, c =>
    if pyLt cur e then
      let curEnd := pyMin (saturatingAdd cur c) e
      (cur, curEnd) :: chunkEmit fuel curEnd e c
    else []

/-- Model of `_chunk_dates(start, end, chunk_size)` with `end` given: raises
(`.error`) when `chunk_size == timedelta(0)` and when `start > end`, in that
order, then runs the chunk loop. -/
def chunkDates (fuel : Nat) (s e : PyDT) (c : Int) :
    Except String (Option (List (PyDT × PyDT))) :=
  if c = 0 then .error "chunk_size must be greater than zero"
  else if pyLt e s then .error "start is later than or equal to end"
  else .ok (chunkLoop fuel s e c)

/-- Decoration-time work of `batched(start_arg, end_arg, chunk_size=…, how=…)`:
only `how` is validated (mapped to the request key); `chunk_size` is not
inspected at decoration time. -/
def batchedDecorate (how : String) (chunkSize : Int) : Except String String :=
  if how = "json" then .ok "json"
  else if how = "query" then .ok "params"
  else .error "Unsupported how value"

/-- The `wrapper` produced by `batched`: one invocation of the wrapped
function per chunk, in chunk order, results collected into a list. `f`
abstracts one wrapped-function call on a chunk. -/
def batchedWrapper {R : Type} (fuel : Nat) (s e : PyDT) (c : Int)
    (f : PyDT × PyDT → R) : Except String (Option (List R)) :=
  match chunkDates fuel s e c with
  | .error m => .error m
  | .ok o => .ok (o.map (fun l => l.map f))

/-- Ideal chunk boundaries on plain integers (instants), fuelled the same way
as `chunkLoop`; used to state what the loop computes when no saturation
anomaly interferes. -/
def idealChunksF : Nat → Int → Int → Int → List (Int × Int)
  | 0, _, _, _ => []
  | fuel + 1, s, e, c =>
    if s < e then (s, min (s + c) e) :: idealChunksF fuel (min (s + c) e) e c
    else []

/-- Instant view of a chunk list. -/
def mapInstants (l : List (PyDT × PyDT)) : List (Int × Int) :=
  l.map (fun p => (instant p.1, instant p.2))

end Chunking

namespace Api

/-- A value stored in a `requests.request` keyword mapping: a string, a
boolean flag (e.g. `allow_redirects`), or a nested string mapping (e.g.
`headers`, a JSON body, query parameters). -/
inductive Val where
  | vs (s : String)
  | vb (b : Bool)
  | vd (entries : List (String × String))
deriving DecidableEq, Repr

/-- A Python keyword-argument dict: association list in insertion order. -/
abbrev Dict := List (String × Val)

/-- First-match association lookup (`d.get(k)` / `d[k]`). -/
def dictLookup : Dict → String → Option Val
  | [], _ => none
  | (k', v') :: t, k => if k' = k then some v' else dictLookup t k

/-- Assignment `d[k] = v`: replaces the value in place when the key exists, else appends
(Python dicts keep insertion order). -/
def dictSet : Dict → String → Val → Dict
  | [], k, v => [(k, v)]
  | (k', v') :: t, k, v => if k' = k then (k, v) :: t else (k', v') :: dictSet t k v

/-- Python `d.setdefault(k, v)`. -/
def dictSetdefault (d : Dict) (k : String) (v : Val) : Dict :=
  match dictLookup d k with
  | some _ => d
  | none => d ++ [(k, v)]

/-- First-match lookup in a flat string mapping (nested dicts such as
`headers` or a JSON body). -/
def strLookup : List (String × String) → String → Option String
  | [], _ => none
  | (k', v') :: t, k => if k' = k then some v' else strLookup t k

/-- Assignment `d[k] = v` on a flat string mapping. -/
def strSet : List (String × String) → String → String → List (String × String)
  | [], k, v => [(k, v)]
  | (k', v') :: t, k, v => if k' = k then (k, v) :: t else (k', v') :: strSet t k v

/-- Python `a | b` on dicts: keys of `a` in order (values overridden by `b`
where present), then keys only in `b`, in `b`'s order. -/
def dictMerge (a b : Dict) : Dict :=
  (a.map fun kv => match dictLookup b kv.1 with
    | some v => (kv.1, v)
    | none => kv) ++
  b.filter fun kv => (dictLookup a kv.1).isNone

/-- A middleware object: `processRequest` is `some` exactly when the object
has a callable `process_request` attribute. -/
structure Middleware where
  processRequest : Option (Dict → Dict)

/-- Model of `API._apply_request_middleware`: filter the middleware with a callable
`process_request`, then left-fold their transformations over the request
kwargs. -/
def applyRequestMiddleware (ms : List Middleware) (p : Dict) : Dict :=
  (ms.filter fun m => m.processRequest.isSome).foldl
    (fun acc m =>
      match m.processRequest with
      | some f => f acc
      | none => acc)
    p

/-- The final `requests.request` kwargs built by `wrapper_get`: set
`method`/`url`, default `allow_redirects`, run the middleware, then overlay
`request_kwargs or {}` updated with the extra call-site kwargs
(`final_request_kwargs = after_middleware_kwargs | extra_kwargs`). -/
def wrapperGetFinal (ms : List Middleware) (url : String) (globKwargs : Dict)
    (requestKwargs : Option Dict) (extraRequestKwargs : Dict) : Dict :=
  let glob := dictSetdefault
    (dictSet (dictSet globKwargs "method" (.vs "GET")) "url" (.vs url))
    "allow_redirects" (.vb true)
  let afterMiddleware := applyRequestMiddleware ms glob
  let extraKwargs := dictMerge (requestKwargs.getD []) extraRequestKwargs
  dictMerge afterMiddleware extraKwargs

/-- The final `requests.request` kwargs built by `wrapper_post`: set
`method`/`url`, pass `json=post_json` plus the glob kwargs through the
middleware, then overlay `request_kwargs or {}`. -/
def wrapperPostFinal (ms : List Middleware) (url : String) (globKwargs : Dict)
    (postJson : List (String × String)) (requestKwargs : Option Dict) : Dict :=
  let glob := dictSet (dictSet globKwargs "method" (.vs "POST")) "url" (.vs url)
  let afterMiddleware := applyRequestMiddleware ms (("json", .vd postJson) :: glob)
  dictMerge afterMiddleware (requestKwargs.getD [])

end Api

namespace Auth

/-- A cached bearer token: the credential string and the instant
(`valid_until`, microseconds on the same axis as `now`) it expires. -/
structure Tok where
  token : String
  validUntil : Int
deriving DecidableEq, Repr

/-- Model of `BearerTokenMiddleware.is_valid`: `valid_until > now`. -/
def isValid (now : Int) (t : Tok) : Bool := now < t.validUntil

/-- The refresh condition of `process_request`:
`self.token_model is None or not self.is_valid()`. -/
def needRefresh (now : Int) (m : Option Tok) : Bool :=
  match m with
  | none => true
  | some t => !isValid now t

/-- Header injection of `process_request` (lines 70–71):
`request_kwargs.setdefault("headers", {})` then
`request_kwargs["headers"]["Authorization"] = f"Bearer {token}"`. -/
def addAuthHeader (token : String) (req : Api.Dict) : Api.Dict :=
  let req' := Api.dictSetdefault req "headers" (.vd [])
  match Api.dictLookup req' "headers" with
  | some (.vd h) =>
      Api.dictSet req' "headers"
        (.vd (Api.strSet h "Authorization" ("Bearer " ++ token)))
  | _ => req'

/-- Middleware instance state: the cached token and, when a token file is
configured, its contents (abstracted by the token the JSON text encodes). -/
structure MWState where
  tokenModel : Option Tok
  tokenFile : Option (Option Tok)
deriving DecidableEq, Repr

/-- Model of `BearerTokenMiddleware.process_request`, sequentially, with the token
endpoint's `get_token()` outcome passed in as `fetch`. A raised error carries
the instance state at the moment of propagation (`.error (e, state)`); in
`_refresh_token` the fetch is the first statement, so nothing has been
mutated when it raises. On success the file (if configured) is overwritten
and the cached token replaced before the header is built from it. -/
def processRequest (fetch : Except String Tok) (now : Int) (st : MWState)
    (req : Api.Dict) : Except (String × MWState) (MWState × Api.Dict) :=
  if needRefresh now st.tokenModel then
    match fetch with
    | .error e => .error (e, st)
    | .ok t =>
        let st' : MWState :=
          { tokenModel := some t
            tokenFile := st.tokenFile.map fun _ => some t }
        .ok (st', addAuthHeader t.token req)
  else
    match st.tokenModel with
    | some t => .ok (st, addAuthHeader t.token req)
    | none => .ok (st, req)

/-! Interleaving model of `process_request` for two concurrent callers.
`process_request` and `_refresh_token` acquire no lock, so between any two
Python statements the other thread may run. The atomic units are the
individual statements of the source: the refresh-condition read (lines
66–67), the token fetch `self.token_parser.get_token()` (line 77), the
cached-token store `self.token_model = new_token` (line 83), and the header
build reading `self.token_model.token` (lines 70–71). No token file is
configured (as in `test_auth.py`). -/

/-- One atomic statement of `process_request`. -/
inductive AuthOp where
  | check
  | fetch
  | store
  | header
deriving DecidableEq, Repr

/-- Per-thread state: remaining statements, the local `new_token` variable,
and the Authorization token string the caller ends up with. -/
structure ThreadSt where
  remaining : List AuthOp
  pending : Option Tok
  headerTok : Option String
deriving DecidableEq, Repr

/-- Shared `BearerTokenMiddleware` instance state plus the counting token
endpoint of `test_auth.py` (`call_count`) and a supply of fresh token ids. -/
structure Shared where
  tokenModel : Option Tok
  fetchCount : Nat
  nextId : Nat
deriving DecidableEq, Repr

/-- The token produced by the endpoint's `n`-th fetch: distinct string,
`valid_until` five minutes in the future. -/
def freshTok (n : Nat) : Tok := { token := "tok" ++ toString n, validUntil := 300000000 }

/-- Execute one atomic statement of one thread against the shared state. -/
def execOp (now : Int) (sh : Shared) (ts : ThreadSt) : Shared × ThreadSt :=
  match ts.remaining with
  | [] => (sh, ts)
  | op :: rest =>
    match op with
    | .check =>
        if needRefresh now sh.tokenModel then
          (sh, { ts with remaining := [.fetch, .store, .header] })
        else
          (sh, { ts with remaining := [.header] })
    | .fetch =>
        ({ sh with fetchCount := sh.fetchCount + 1, nextId := sh.nextId + 1 },
         { ts with pending := some (freshTok sh.nextId), remaining := rest })
    | .store =>
        ({ sh with tokenModel := ts.pending }, { ts with remaining := rest })
    | .header =>
        (sh, { ts with headerTok := sh.tokenModel.map Tok.token, remaining := rest })

/-- Configuration of one middleware instance with two concurrent callers. -/
structure AuthCfg where
  sh : Shared
  t0 : ThreadSt
  t1 : ThreadSt
deriving DecidableEq, Repr

/-- Run the thread named by the scheduler for one atomic statement. -/
def authStep (now : Int) (cfg : AuthCfg) (tid : Bool) : AuthCfg :=
  if tid then
    let (sh, t1) := execOp now cfg.sh cfg.t1
    { cfg with sh := sh, t1 := t1 }
  else
    let (sh, t0) := execOp now cfg.sh cfg.t0
    { cfg with sh := sh, t0 := t0 }

/-- Run a whole interleaving (a list of thread ids). -/
def runSched (now : Int) (sched : List Bool) (cfg : AuthCfg) : AuthCfg :=
  sched.foldl (authStep now) cfg

/-- Both callers enter `process_request` on an instance with no cached token
(first use, nothing persisted). -/
def authInit : AuthCfg :=
  { sh := { tokenModel := none, fetchCount := 0, nextId := 0 }
    t0 := { remaining := [.check], pending := none, headerTok := none }
    t1 := { remaining := [.check], pending := none, headerTok := none } }

end Auth

namespace Placement

/-- The type of a caller-supplied `request_kwargs` mapping: each key (e.g.
`"json"`, `"params"`) holds a raw body/query object, a flat string mapping. -/
abbrev RK := List (String × List (String × String))

/-- Lookup in `request_kwargs`. -/
def rkLookup : RK → String → Option (List (String × String))
  | [], _ => none
  | (k', v') :: t, k => if k' = k then some v' else rkLookup t k

/-- In-place update of `request_kwargs[key]`. -/
def rkSet : RK → String → List (String × String) → RK
  | [], k, v => [(k, v)]
  | (k', v') :: t, k, v => if k' = k then (k, v) :: t else (k', v') :: rkSet t k v

/-- Model of `_find_request_kwarg(d, key)`: `d["request_kwargs"][key]`, raising
(`none`) when `request_kwargs` is `None` or lacks `key`. -/
def findRequestKwarg (requestKwargs : Option RK) (key : String) :
    Option (List (String × String)) :=
  match requestKwargs with
  | none => none
  | some rk => rkLookup rk key

/-- The local `modify(d)` of `_modify_signature`: `d[start_arg] = new_start`
and, when a new end value exists, `d[end_arg] = new_end`. -/
def modifyFlat (d : List (String × String)) (startArg newStart : String)
    (endArg : String) (newEnd : Option String) : List (String × String) :=
  let d' := Api.strSet d startArg newStart
  match newEnd with
  | some v => Api.strSet d' endArg v
  | none => d'

/-- The bound arguments of `wrapper_post` (`*args, request_kwargs=None,
**kwargs`): the caller's `request_kwargs` and the extra keyword arguments. -/
structure BoundPost where
  request_kwargs : Option RK
  kwargs : List (String × String)
deriving DecidableEq, Repr

/-- The `POST` branch of `_modify_signature`: when `request_kwargs` was
supplied, `_find_request_kwarg` must succeed (else `ValueError`), and the
body/query object is modified only when it already contains the start or end
key; otherwise, when no `request_kwargs` was supplied and the wrapped
function declares the start parameter, the direct keyword argument is
modified. -/
def modifySignaturePost (userParams : List String) (b : BoundPost)
    (key startArg newStart endArg : String) (newEnd : Option String) :
    Except String BoundPost :=
  match b.request_kwargs with
  | some rk =>
    match findRequestKwarg b.request_kwargs key with
    | none => .error "The signature has no place for batching parameters"
    | some inner =>
      if (Api.strLookup inner startArg).isSome || (Api.strLookup inner endArg).isSome then
        let inner' := modifyFlat inner startArg newStart endArg newEnd
        .ok { b with request_kwargs := some (rkSet rk key inner') }
      else
        .ok b
  | none =>
    if startArg ∈ userParams then
      .ok { b with kwargs := modifyFlat b.kwargs startArg newStart endArg newEnd }
    else
      .ok b

/-- The bound arguments of `wrapper_get` (`path_format`, `request_kwargs`,
`**extra_request_kwargs`); only `request_kwargs` is read by the rewrite. -/
structure BoundGet where
  request_kwargs : Option RK
  extra_request_kwargs : RK
deriving DecidableEq, Repr

/-- The `GET` branch of `_modify_signature`: the rewrite always targets
`request_kwargs[key]` via `_find_request_kwarg`, raising when it is
missing. -/
def modifySignatureGet (b : BoundGet) (key startArg newStart endArg : String)
    (newEnd : Option String) : Except String BoundGet :=
  match b.request_kwargs with
  | none => .error "The signature has no place for batching parameters"
  | some rk =>
    match rkLookup rk key with
    | none => .error "The signature has no place for batching parameters"
    | some inner =>
      let inner' := modifyFlat inner startArg newStart endArg newEnd
      .ok { b with request_kwargs := some (rkSet rk key inner') }

/-- Amended placement policy for POST calls, stated from the corrected
claim's words: (a) with a caller-supplied `request_kwargs`, the configured
key must be present (else `BatchingTargetNotFound`) and the rewrite happens
inside it exactly when it already holds the start or end key, all other
arguments staying untouched otherwise; (b) without `request_kwargs`, the
wrapped function's declared start parameter is rewritten as a direct keyword
argument; (c) in every remaining case the arguments are left unchanged and
no error is raised. -/
def amendedModifyPost (userParams : List String) (b : BoundPost)
    (key startArg newStart endArg : String) (newEnd : Option String) :
    Except String BoundPost :=
  if h : b.request_kwargs.isSome then
    let rk := b.request_kwargs.get h
    match rkLookup rk key with
    | none => .error "The signature has no place for batching parameters"
    | some inner =>
      if (Api.strLookup inner startArg).isSome || (Api.strLookup inner endArg).isSome then
        let inner' := modifyFlat inner startArg newStart endArg newEnd
        .ok { b with request_kwargs := some (rkSet rk key inner') }
      else
        .ok b
  else if startArg ∈ userParams then
    .ok { b with kwargs := modifyFlat b.kwargs startArg newStart endArg newEnd }
  else
    .ok b

/-- Amended placement policy for GET calls: the rewritten window always lands
in `request_kwargs` under the configured key (inserting absent start/end
keys), and the call fails with `BatchingTargetNotFound` when `request_kwargs`
or the key is missing. -/
def amendedModifyGet (b : BoundGet) (key startArg newStart endArg : String)
    (newEnd : Option String) : Except String BoundGet :=
  match findRequestKwarg b.request_kwargs key with
  | none => .error "The signature has no place for batching parameters"
  | some inner =>
    let inner' := modifyFlat inner startArg newStart endArg newEnd
    .ok { b with request_kwargs := some (rkSet (b.request_kwargs.getD []) key inner') }

end Placement

namespace Persist

/-!
Model of the token persistence round trip. `_refresh_token` writes
`new_token.model_dump_json()` to the token file and `BaseAuthToken.from_file`
reparses it with `model_validate_json`. The pydantic codec (an external
collaborator of the core) is embedded concretely: the JSON object
`{"token": "...", "valid_until": "<ISO-8601>"}` with the datetime rendered
from its calendar fields (zero-padded, microsecond precision, optional
`±HH:MM` UTC offset) and parsed back field by field.
-/

/-- The character of a decimal digit. -/
def digitChar (d : Nat) : Char := Char.ofNat (48 + d)

/-- The decimal value of a digit character. -/
def charDigit (c : Char) : Nat := c.toNat - 48

/-- Is `c` one of `'0'`–`'9'`? -/
def isDigitChar (c : Char) : Bool := decide (48 ≤ c.toNat ∧ c.toNat ≤ 57)

/-- Little-endian decimal digit characters of `n`. -/
def natDigitsLE (n : Nat) : List Char := (Nat.digits 10 n).map digitChar

/-- Number `n` printed in decimal, left-padded with `'0'` to width `w`. -/
def padNum (w n : Nat) : List Char :=
  (natDigitsLE n ++ List.replicate (w - (natDigitsLE n).length) '0').reverse

/-- Decimal value of a big-endian digit string. -/
def chVal (cs : List Char) : Nat := cs.foldl (fun a c => a * 10 + charDigit c) 0

/-- Read exactly `w` digit characters as a number, returning the rest. -/
def readFixed (w : Nat) (cs : List Char) : Option (Nat × List Char) :=
  if (cs.take w).length == w && (cs.take w).all isDigitChar then
    some (chVal (cs.take w), cs.drop w)
  else
    none

/-- Consume an expected literal character sequence. -/
def expectChars : List Char → List Char → Option (List Char)
  | [], cs => some cs
  | _ :: _, [] => none
  | p :: ps, c :: cs => if c = p then expectChars ps cs else none

/-- Consume characters up to (and including) a terminator, returning the
characters before it. -/
def readUntil (stop : Char) : List Char → Option (List Char × List Char)
  | [] => none
  | c :: cs =>
    if c = stop then some ([], cs)
    else (readUntil stop cs).map fun r => (c :: r.1, r.2)

/-- A Python `datetime` as stored: calendar fields plus an optional UTC
offset in minutes (`None` = naive). -/
structure PyCal where
  year : Nat
  month : Nat
  day : Nat
  hour : Nat
  minute : Nat
  second : Nat
  microsecond : Nat
  offMinutes : Option Int
deriving DecidableEq, Repr

/-- The rendered UTC-offset suffix: empty for a naive datetime, else
`±HH:MM`. -/
def offChars : Option Int → List Char
  | none => []
  | some o =>
    (if o < 0 then '-' else '+') ::
      (padNum 2 (o.natAbs / 60) ++ ':' :: padNum 2 (o.natAbs % 60))

/-- ISO-8601 rendering of a datetime:
`YYYY-MM-DDTHH:MM:SS.ffffff[±HH:MM]`. -/
def isoChars (d : PyCal) : List Char :=
  padNum 4 d.year ++ '-' ::
    (padNum 2 d.month ++ '-' ::
      (padNum 2 d.day ++ 'T' ::
        (padNum 2 d.hour ++ ':' ::
          (padNum 2 d.minute ++ ':' ::
            (padNum 2 d.second ++ '.' ::
              (padNum 6 d.microsecond ++ offChars d.offMinutes))))))

/-- Parse an optional `±HH:MM` UTC-offset suffix; anything not starting with
a sign leaves the input untouched (naive datetime). -/
def parseOffset (cs : List Char) : Option (Option Int × List Char) :=
  match cs with
  | '+' :: cs' => do
      let (oh, cs₁) ← readFixed 2 cs'
      let cs₂ ← expectChars [':'] cs₁
      let (om, cs₃) ← readFixed 2 cs₂
      some (some ((oh : Int) * 60 + om), cs₃)
  | '-' :: cs' => do
      let (oh, cs₁) ← readFixed 2 cs'
      let cs₂ ← expectChars [':'] cs₁
      let (om, cs₃) ← readFixed 2 cs₂
      some (some (-((oh : Int) * 60 + om)), cs₃)
  | _ => some (none, cs)

/-- Parse an ISO-8601 datetime back into its calendar fields. -/
def parseISODT (cs : List Char) : Option (PyCal × List Char) := do
  let (y, cs) ← readFixed 4 cs
  let cs ← expectChars ['-'] cs
  let (mo, cs) ← readFixed 2 cs
  let cs ← expectChars ['-'] cs
  let (da, cs) ← readFixed 2 cs
  let cs ← expectChars ['T'] cs
  let (ho, cs) ← readFixed 2 cs
  let cs ← expectChars [':'] cs
  let (mi, cs) ← readFixed 2 cs
  let cs ← expectChars [':'] cs
  let (se, cs) ← readFixed 2 cs
  let cs ← expectChars ['.'] cs
  let (us, cs) ← readFixed 6 cs
  let (off, cs) ← parseOffset cs
  some ({ year := y, month := mo, day := da, hour := ho, minute := mi,
          second := se, microsecond := us, offMinutes := off }, cs)

/-- Model of `BaseAuthToken`: the persisted token shape. -/
structure BaseAuthToken where
  token : String
  valid_until : PyCal
deriving DecidableEq, Repr

/-- The JSON object opener character (code point 123). -/
def jsonOpen : Char := Char.ofNat 123

/-- The JSON object closer character (code point 125). -/
def jsonClose : Char := Char.ofNat 125

/-- The literal `"token":"` preceded by the object opener. -/
def jsonHead : List Char := [jsonOpen, '"', 't', 'o', 'k', 'e', 'n', '"', ':', '"']

/-- The literal `,"valid_until":"` between the two fields (the token's
closing quote is consumed by `readUntil`). -/
def jsonMid : List Char :=
  [',', '"', 'v', 'a', 'l', 'i', 'd', '_', 'u', 'n', 't', 'i', 'l', '"', ':', '"']

/-- The closing quote and object closer. -/
def jsonTail : List Char := ['"', jsonClose]

/-- Model of `model_dump_json()`: the token file's contents written by
`_refresh_token`. -/
def dumpTokenChars (t : BaseAuthToken) : List Char :=
  jsonHead ++ t.token.data ++ '"' :: (jsonMid ++ isoChars t.valid_until ++ jsonTail)

/-- Model of `BaseAuthToken.from_file`: `model_validate_json` over the file's
contents. -/
def parseTokenChars (cs : List Char) : Option BaseAuthToken := do
  let cs ← expectChars jsonHead cs
  let (tok, cs) ← readUntil '"' cs
  let cs ← expectChars jsonMid cs
  let (d, cs) ← parseISODT cs
  let cs ← expectChars jsonTail cs
  match cs with
  | [] => some { token := String.mk tok, valid_until := d }
  | _ :: _ => none

end Persist

/-! ## Theorems -/

namespace Api

/-- Lookup distributes over append when the left part hits. -/
theorem lookup_append_some (xs ys : Dict) (k : String) (v : Val)
    (h : dictLookup xs k = some v) : dictLookup (xs ++ ys) k = some v := by
  induction xs with
  | nil => simp [dictLookup] at h
  | cons kv t ih =>
    obtain ⟨k', v'⟩ := kv
    by_cases hk : k' = k
    · simp only [dictLookup, if_pos hk] at h ⊢
      exact h
    · simp only [dictLookup, if_neg hk, List.cons_append] at h ⊢
      exact ih h

/-- Lookup distributes over append when the left part misses. -/
theorem lookup_append_none (xs ys : Dict) (k : String)
    (h : dictLookup xs k = none) : dictLookup (xs ++ ys) k = dictLookup ys k := by
  induction xs with
  | nil => rfl
  | cons kv t ih =>
    obtain ⟨k', v'⟩ := kv
    by_cases hk : k' = k
    · simp [dictLookup, if_pos hk] at h
    · simp only [dictLookup, if_neg hk, List.cons_append] at h ⊢
      exact ih h

/-- In the overridden-`a` part of `dictMerge`, a key present in both maps to
`b`'s value. -/
theorem lookup_map_merge (a b : Dict) (k : String) (w v : Val)
    (ha : dictLookup a k = some w) (hb : dictLookup b k = some v) :
    dictLookup
      (a.map fun kv => match dictLookup b kv.1 with
        | some u => (kv.1, u)
        | none => kv) k = some v := by
  induction a with
  | nil => simp [dictLookup] at ha
  | cons kv t ih =>
    obtain ⟨k', v'⟩ := kv
    by_cases hk : k' = k
    · subst hk
      simp [dictLookup, hb]
    · simp only [dictLookup, if_neg hk] at ha
      cases hbk : dictLookup b k' <;>
        simp only [List.map_cons, hbk, dictLookup, if_neg hk] <;>
        exact ih ha

/-- A key absent from `a` is absent from `a`'s part of the merge. -/
theorem lookup_map_merge_none (a b : Dict) (k : String)
    (ha : dictLookup a k = none) :
    dictLookup
      (a.map fun kv => match dictLookup b kv.1 with
        | some u => (kv.1, u)
        | none => kv) k = none := by
  induction a with
  | nil => rfl
  | cons kv t ih =>
    obtain ⟨k', v'⟩ := kv
    by_cases hk : k' = k
    · simp [dictLookup, if_pos hk] at ha
    · simp only [dictLookup, if_neg hk] at ha
      cases hbk : dictLookup b k' <;>
        simp only [List.map_cons, hbk, dictLookup, if_neg hk] <;>
        exact ih ha

/-- Filtering with a predicate that keeps every entry of key `k` preserves
the lookup of `k`. -/
theorem lookup_filter_keep (b : Dict) (k : String) (p : String × Val → Bool)
    (hp : ∀ v', p (k, v') = true) :
    dictLookup (b.filter p) k = dictLookup b k := by
  induction b with
  | nil => rfl
  | cons kv t ih =>
    obtain ⟨k', v'⟩ := kv
    by_cases hk : k' = k
    · subst hk
      simp [List.filter_cons, hp v', dictLookup]
    · cases hpkv : p (k', v') <;>
        simp [List.filter_cons, hpkv, dictLookup, hk, ih]

/-- Python's `a | b`: any key present in `b` takes `b`'s value in the merge
(the right operand wins wholesale at top level). -/
theorem lookup_merge_right (a b : Dict) (k : String) (v : Val)
    (hb : dictLookup b k = some v) : dictLookup (dictMerge a b) k = some v := by
  unfold dictMerge
  cases ha : dictLookup a k with
  | some w =>
    exact lookup_append_some _ _ _ _ (lookup_map_merge a b k w v ha hb)
  | none =>
    rw [lookup_append_none _ _ _ (lookup_map_merge_none a b k ha)]
    rw [lookup_filter_keep b k _ (fun v' => by simp [ha])]
    exact hb

end Api

/-- C1: the concurrency contract fails on the code. `process_request` and
`_refresh_token` hold no mutex, so the interleaving in which both callers
evaluate the refresh condition before either stores a token is legal; it
performs two `get_token` fetches and hands the two callers Authorization
headers built from different tokens, although the claim (and
`test_auth.py`) require exactly one fetch and one shared token. -/
theorem auth_concurrent_double_fetch :
    (Auth.runSched 0 [false, true, false, false, false, true, true, true]
        Auth.authInit).sh.fetchCount = 2 ∧
    (Auth.runSched 0 [false, true, false, false, false, true, true, true]
        Auth.authInit).t0.headerTok ≠
      (Auth.runSched 0 [false, true, false, false, false, true, true, true]
        Auth.authInit).t1.headerTok ∧
    (Auth.runSched 0 [false, true, false, false, false, true, true, true]
        Auth.authInit).t0.remaining = [] ∧
    (Auth.runSched 0 [false, true, false, false, false, true, true, true]
        Auth.authInit).t1.remaining = [] := by
  decide

/-- C8: `_apply_request_middleware` — filtering the middleware that expose a
callable `process_request` and folding them equals the left fold over the
whole list in caller order in which middleware without the capability are
skipped (no reordering, skipped middleware have no effect). -/
theorem apply_middleware_fold (ms : List Api.Middleware) (p : Api.Dict) :
    Api.applyRequestMiddleware ms p =
      ms.foldl
        (fun acc m =>
          match m.processRequest with
          | some f => f acc
          | none => acc)
        p := by
  induction ms generalizing p with
  | nil => rfl
  | cons m t ih =>
    cases h : m.processRequest with
    | some f =>
      have ht := ih (f p)
      simp only [Api.applyRequestMiddleware] at ht ⊢
      simpa [List.filter_cons, h] using ht
    | none =>
      have ht := ih p
      simp only [Api.applyRequestMiddleware] at ht ⊢
      simpa [List.filter_cons, h] using ht

/-- C2 counterexample: a POST call supplies `request_kwargs` whose body
object exists under the configured key but contains neither the start nor
the end key, while the wrapped function does declare the start parameter.
The claim's precedence ((a) inapplicable, so (b): rewrite the declared
argument) requires `kwargs["start"]` to become the chunk boundary; the code
instead returns every argument unchanged and raises nothing. -/
theorem modify_signature_precedence_cex :
    Placement.modifySignaturePost ["asset_id", "start", "end"]
      ⟨some [("json", [("id", "u1")])],
        [("asset_id", "u1"), ("start", "2024-01-01"), ("end", "2024-01-31")]⟩
      "json" "start" "2024-01-06" "end" (some "2024-01-11") =
    .ok ⟨some [("json", [("id", "u1")])],
        [("asset_id", "u1"), ("start", "2024-01-01"), ("end", "2024-01-31")]⟩ := by
  rfl

/-- C2 amended: the rewrite placement the code implements. POST: a supplied
`request_kwargs` must contain the configured key (else
`BatchingTargetNotFound`) and is rewritten only when it already holds the
start or end key — the declared parameter is never used as a fallback in
that case, and no error is raised when neither key is present; without
`request_kwargs` the declared start parameter is rewritten, and otherwise
the call proceeds unchanged. GET: the rewrite always targets
`request_kwargs[key]`, failing with `BatchingTargetNotFound` when absent. -/
theorem modify_signature_amended (userParams : List String) (b : Placement.BoundPost)
    (bg : Placement.BoundGet) (key startArg newStart endArg : String)
    (newEnd : Option String) :
    Placement.modifySignaturePost userParams b key startArg newStart endArg newEnd =
      Placement.amendedModifyPost userParams b key startArg newStart endArg newEnd ∧
    Placement.modifySignatureGet bg key startArg newStart endArg newEnd =
      Placement.amendedModifyGet bg key startArg newStart endArg newEnd := by
  constructor
  · obtain ⟨rkO, kw⟩ := b
    cases rkO with
    | none =>
      simp [Placement.modifySignaturePost, Placement.amendedModifyPost]
    | some rk =>
      simp only [Placement.modifySignaturePost, Placement.amendedModifyPost,
        Placement.findRequestKwarg, Option.isSome_some, Option.get_some, dite_true]
  · obtain ⟨rkO, ex⟩ := bg
    cases rkO with
    | none =>
      simp [Placement.modifySignatureGet, Placement.amendedModifyGet,
        Placement.findRequestKwarg]
    | some rk =>
      simp only [Placement.modifySignatureGet, Placement.amendedModifyGet,
        Placement.findRequestKwarg, Option.getD_some]

namespace Chunking

/-- Once the loop guard fails, the loop yields nothing more. -/
theorem chunkLoop_done (n : Nat) (cur e : PyDT) (c : Int)
    (h : pyLt cur e = false) : chunkLoop n cur e c = some [] := by
  cases n <;> simp [chunkLoop, h]

/-- The ideal recursion also stops once the guard fails. -/
theorem idealChunksF_done (n : Nat) (s e c : Int) (h : ¬ s < e) :
    idealChunksF n s e c = [] := by
  cases n <;> simp [idealChunksF, h]

/-- Value of `instant` on an explicit record. -/
theorem instant_mk (a b : Int) : instant ⟨a, b⟩ = a - b := rfl

/-- One loop iteration, on instants: as long as the end instant is
representable in the current offset, `min(_saturating_add(cur, c), end)`
behaves like the ideal `min(cur + c, end)`, stays within the representable
range, and keeps the running offset (or coincides with `end`). -/
theorem chunk_step (c : Int) (cur e : PyDT)
    (hc : 0 < c) (hmin : dtMinNaive ≤ cur.naive)
    (hemin : dtMinNaive ≤ e.naive)
    (hrep : instant e + cur.off ≤ dtMaxNaive) :
    instant (pyMin (saturatingAdd cur c) e) = min (instant cur + c) (instant e) ∧
    dtMinNaive ≤ (pyMin (saturatingAdd cur c) e).naive ∧
    ((pyMin (saturatingAdd cur c) e).off = cur.off ∨
      instant (pyMin (saturatingAdd cur c) e) = instant e) := by
  have hsat : saturatingAdd cur c = ⟨cur.naive + c, cur.off⟩ ∨
      (saturatingAdd cur c = ⟨dtMaxNaive, cur.off⟩ ∧ dtMaxNaive < cur.naive + c) := by
    by_cases hov : dtMinNaive ≤ cur.naive + c ∧ cur.naive + c ≤ dtMaxNaive
    · left
      simp [saturatingAdd, addDelta, hov]
    · right
      refine ⟨by simp [saturatingAdd, addDelta, hov], ?_⟩
      simp only [dtMinNaive] at hmin
      simp only [dtMinNaive, dtMaxNaive] at hov ⊢
      omega
  have hinstc : instant cur = cur.naive - cur.off := rfl
  rcases hsat with hsat | ⟨hsat, hov⟩
  · rw [hsat]
    by_cases hlt : pyLt e ⟨cur.naive + c, cur.off⟩ = true
    · have hlt' : instant e < cur.naive + c - cur.off := by
        simpa [pyLt, instant_mk] using hlt
      have hpm : pyMin ⟨cur.naive + c, cur.off⟩ e = e := by
        simp [pyMin, hlt]
      rw [hpm]
      refine ⟨?_, hemin, Or.inr rfl⟩
      rw [min_eq_right (by omega)]
    · have hlt' : ¬ instant e < cur.naive + c - cur.off := by
        simpa [pyLt, instant_mk] using hlt
      have hpm : pyMin ⟨cur.naive + c, cur.off⟩ e = ⟨cur.naive + c, cur.off⟩ := by
        simp [pyMin, hlt]
      rw [hpm]
      refine ⟨?_, ?_, Or.inl rfl⟩
      · rw [instant_mk, min_eq_left (by omega)]
        omega
      · simp only [dtMinNaive] at hmin ⊢
        omega
  · rw [hsat]
    have hrep' : instant e ≤ dtMaxNaive - cur.off := by omega
    by_cases hlt : pyLt e ⟨dtMaxNaive, cur.off⟩ = true
    · have hlt' : instant e < dtMaxNaive - cur.off := by
        simpa [pyLt, instant_mk] using hlt
      have hpm : pyMin ⟨dtMaxNaive, cur.off⟩ e = e := by
        simp [pyMin, hlt]
      rw [hpm]
      refine ⟨?_, hemin, Or.inr rfl⟩
      rw [min_eq_right (by omega)]
    · have hlt' : ¬ instant e < dtMaxNaive - cur.off := by
        simpa [pyLt, instant_mk] using hlt
      have hpm : pyMin ⟨dtMaxNaive, cur.off⟩ e = ⟨dtMaxNaive, cur.off⟩ := by
        simp [pyMin, hlt]
      rw [hpm]
      have hie : instant e = dtMaxNaive - cur.off := by omega
      refine ⟨?_, ?_, Or.inl rfl⟩
      · rw [instant_mk, min_eq_right (by omega), hie]
      · simp only [dtMinNaive, dtMaxNaive] at *
        omega

/-- Simulation: under the representability side condition the fuelled loop
completes and its chunks, seen as instants, are the ideal integer chunks. -/
theorem chunkLoop_sim (c : Int) (e : PyDT) (o : Int)
    (hc : 0 < c) (hemin : dtMinNaive ≤ e.naive) (hemax : e.naive ≤ dtMaxNaive)
    (hrep : instant e + o ≤ dtMaxNaive) :
    ∀ (fuel : Nat) (cur : PyDT), cur.off = o → dtMinNaive ≤ cur.naive →
      instant cur ≤ instant e → (instant e - instant cur).toNat ≤ fuel →
      ∃ l, chunkLoop fuel cur e c = some l ∧
        mapInstants l = idealChunksF fuel (instant cur) (instant e) c := by
  intro fuel
  induction fuel with
  | zero =>
    intro cur hoff hmin hle hfuel
    have heq : instant cur = instant e := by omega
    refine ⟨[], ?_, ?_⟩
    · simp [chunkLoop, pyLt, heq]
    · simp [mapInstants, idealChunksF]
  | succ n ih =>
    intro cur hoff hmin hle hfuel
    by_cases hlt : instant cur < instant e
    · have hrep' : instant e + cur.off ≤ dtMaxNaive := by rw [hoff]; exact hrep
      obtain ⟨hinst, hcemin, hoffor⟩ := chunk_step c cur e hc hmin hemin hrep'
      set ce := pyMin (saturatingAdd cur c) e with hce
      have h1 : instant ce ≤ instant e := by rw [hinst]; exact min_le_right _ _
      have h2 : instant cur < instant ce := by
        rw [hinst]; exact lt_min (by omega) hlt
      by_cases h3 : instant ce < instant e
      · have hoff' : ce.off = o := by
          rcases hoffor with h | h
          · rw [h, hoff]
          · omega
        obtain ⟨l, hl, hmap⟩ := ih ce hoff' hcemin h1 (by omega)
        refine ⟨(cur, ce) :: l, ?_, ?_⟩
        · simp only [chunkLoop, pyLt, decide_eq_true_eq, if_pos hlt, ← hce, hl]
          rfl
        · simp only [mapInstants, List.map_cons] at hmap ⊢
          rw [hmap, idealChunksF, if_pos hlt, ← hinst]
      · have heq : instant ce = instant e := by omega
        refine ⟨[(cur, ce)], ?_, ?_⟩
        · have hdone : chunkLoop n ce e c = some [] := by
            apply chunkLoop_done
            simp [pyLt, heq]
          simp only [chunkLoop, pyLt, decide_eq_true_eq, if_pos hlt, ← hce, hdone]
          rfl
        · have hdone' : idealChunksF n (min (instant cur + c) (instant e))
              (instant e) c = [] := by
            apply idealChunksF_done
            rw [← hinst, heq]
            omega
          simp only [mapInstants, List.map_cons, List.map_nil]
          rw [idealChunksF, if_pos hlt, hdone', ← hinst, heq]
    · have heq : instant cur = instant e := by omega
      refine ⟨[], ?_, ?_⟩
      · simp [chunkLoop, pyLt, heq]
      · simp [mapInstants, idealChunksF, heq]

/-- The ideal integer chunks are contiguous, ascending, bounded by the chunk
size, cover exactly `[s, e)` and number `⌈(e-s)/c⌉`. -/
theorem ideal_props (c e : Int) (hc : 0 < c) :
    ∀ (fuel : Nat) (s : Int), s ≤ e → (e - s).toNat ≤ fuel →
      List.Chain' (fun p q : Int × Int => p.2 = q.1) (idealChunksF fuel s e c) ∧
      (∀ p ∈ idealChunksF fuel s e c, p.1 < p.2 ∧ p.2 - p.1 ≤ c) ∧
      (s < e → (idealChunksF fuel s e c).head?.map Prod.fst = some s ∧
        (idealChunksF fuel s e c).getLast?.map Prod.snd = some e) ∧
      (idealChunksF fuel s e c).length = ((e - s + c - 1) / c).toNat := by
  intro fuel
  induction fuel with
  | zero =>
    intro s hse hfuel
    have heq : s = e := by omega
    subst heq
    have harith : (c - 1) / c = 0 :=
      Int.ediv_eq_zero_of_lt (by omega) (by omega)
    simp [idealChunksF, harith]
  | succ n ih =>
    intro s hse hfuel
    by_cases hlt : s < e
    · have hs'le : min (s + c) e ≤ e := min_le_right _ _
      have hs'c : min (s + c) e ≤ s + c := min_le_left _ _
      have hs'gt : s < min (s + c) e := lt_min (by omega) hlt
      obtain ⟨ihc, ihb, ihhl, ihlen⟩ := ih (min (s + c) e) hs'le (by omega)
      simp only [idealChunksF, if_pos hlt]
      refine ⟨?_, ?_, ?_, ?_⟩
      · cases hrest : idealChunksF n (min (s + c) e) e c with
        | nil => simp
        | cons q t =>
          have hq : q.1 = min (s + c) e := by
            have hlt' : min (s + c) e < e := by
              by_contra hxe
              have : min (s + c) e = e := by omega
              rw [this] at hrest
              rw [idealChunksF_done n e e c (by omega)] at hrest
              exact List.noConfusion hrest
            have := (ihhl hlt').1
            rw [hrest] at this
            simpa using this
          rw [hrest] at ihc
          exact List.Chain'.cons (by simpa using hq.symm) ihc
      · intro p hp
        rcases List.mem_cons.mp hp with h | h
        · subst h
          exact ⟨hs'gt, by omega⟩
        · exact ihb p h
      · intro _
        refine ⟨by simp, ?_⟩
        by_cases hs'e : min (s + c) e < e
        · obtain ⟨hh, hl⟩ := ihhl hs'e
          cases hrest : idealChunksF n (min (s + c) e) e c with
          | nil => rw [hrest] at hh; simp at hh
          | cons q t =>
            rw [hrest] at hl
            rw [List.getLast?_cons_cons]
            exact hl
        · have hmine : min (s + c) e = e := by omega
          rw [idealChunksF_done n (min (s + c) e) e c (by omega)]
          simp [hmine]
      · rw [List.length_cons, ihlen]
        by_cases hce : e ≤ s + c
        · have hmine : min (s + c) e = e := by omega
          rw [hmine]
          have h1 : (e - e + c - 1) / c = 0 := by
            have h0 : e - e + c - 1 = c - 1 := by ring
            rw [h0]
            exact Int.ediv_eq_zero_of_lt (by omega) (by omega)
          have h2 : (e - s + c - 1) / c = 1 := by
            have h0 : e - s + c - 1 = (e - s - 1) + 1 * c := by ring
            rw [h0, Int.add_mul_ediv_right _ _ (by omega)]
            rw [Int.ediv_eq_zero_of_lt (by omega) (by omega)]
            omega
          rw [h1, h2]
          rfl
        · have hmine : min (s + c) e = s + c := by omega
          rw [hmine]
          have h0 : e - (s + c) + c - 1 = e - s - 1 := by ring
          have h1 : e - s + c - 1 = (e - s - 1) + 1 * c := by ring
          rw [h0, h1, Int.add_mul_ediv_right _ _ (by omega)]
          have h2 : 0 ≤ (e - s - 1) / c := Int.ediv_nonneg (by omega) (by omega)
          omega
    · have heq : s = e := by omega
      subst heq
      have harith : (c - 1) / c = 0 :=
        Int.ediv_eq_zero_of_lt (by omega) (by omega)
      simp [idealChunksF, harith]

end Chunking

/-- C3 counterexample: near the representable boundary with mixed UTC
offsets the claimed chunk properties fail. Start 9999-12-31T13:00+01:00,
end 9999-12-31T23:59:59.999999+00:00 (instants 11 h apart), chunk size 24 h:
the claimed chunk count is `ceil(11h/24h) = 1`, but `_saturating_add`
overflows and pins the boundary at `datetime.max` in the start's offset,
whose instant is strictly below `end`, so the loop emits an unbounded stream
of chunks — the first three are the ones below, with the degenerate chunk
`(sat, sat)` repeating and no chunk ever ending at `end`. -/
theorem chunk_dates_props_cex :
    Chunking.chunkEmit 3 ⟨315537861599999999, 3600000000⟩
        ⟨315537897599999999, 0⟩ 86400000000 =
      [(⟨315537861599999999, 3600000000⟩, ⟨315537897599999999, 3600000000⟩),
        (⟨315537897599999999, 3600000000⟩, ⟨315537897599999999, 3600000000⟩),
        (⟨315537897599999999, 3600000000⟩, ⟨315537897599999999, 3600000000⟩)] ∧
    Chunking.pyLt ⟨315537861599999999, 3600000000⟩ ⟨315537897599999999, 0⟩ = true ∧
    ((Chunking.instant ⟨315537897599999999, 0⟩ -
        Chunking.instant ⟨315537861599999999, 3600000000⟩ + 86400000000 - 1) /
      86400000000).toNat = 1 ∧
    Chunking.instant ⟨315537897599999999, 3600000000⟩ ≠
      Chunking.instant ⟨315537897599999999, 0⟩ := by
  decide

/-- C3 amended: for `start ≤ end`, positive chunk size, valid datetimes and
— the proviso the code forces — `end`'s instant representable within
`start`'s UTC offset (automatic whenever `start` and `end` carry the same
offset), `_chunk_dates` terminates and its chunks, on instants, are
contiguous, strictly ascending, at most one chunk size long, cover exactly
`[start, end)` (first starts at `start`, last ends at `end`), and number
`⌈(end-start)/chunk_size⌉`. -/
theorem chunk_dates_props_amended (s e : Chunking.PyDT) (c : Int) (hc : 0 < c)
    (hse : Chunking.instant s ≤ Chunking.instant e)
    (hsmin : Chunking.dtMinNaive ≤ s.naive)
    (hemin : Chunking.dtMinNaive ≤ e.naive)
    (hemax : e.naive ≤ Chunking.dtMaxNaive)
    (hrep : Chunking.instant e + s.off ≤ Chunking.dtMaxNaive) :
    ∃ l, Chunking.chunkDates (Chunking.instant e - Chunking.instant s).toNat s e c =
        .ok (some l) ∧
      List.Chain' (fun p q : Int × Int => p.2 = q.1) (Chunking.mapInstants l) ∧
      (∀ p ∈ Chunking.mapInstants l, p.1 < p.2 ∧ p.2 - p.1 ≤ c) ∧
      (Chunking.instant s < Chunking.instant e →
        (Chunking.mapInstants l).head?.map Prod.fst = some (Chunking.instant s) ∧
        (Chunking.mapInstants l).getLast?.map Prod.snd = some (Chunking.instant e)) ∧
      (Chunking.mapInstants l).length =
        ((Chunking.instant e - Chunking.instant s + c - 1) / c).toNat := by
  obtain ⟨l, hl, hmap⟩ := Chunking.chunkLoop_sim c e s.off hc hemin hemax hrep
    (Chunking.instant e - Chunking.instant s).toNat s rfl hsmin hse (le_refl _)
  obtain ⟨pc, pb, phl, plen⟩ := Chunking.ideal_props c (Chunking.instant e) hc
    (Chunking.instant e - Chunking.instant s).toNat (Chunking.instant s) hse (le_refl _)
  have hps : Chunking.pyLt e s = false := by
    simp only [Chunking.pyLt, decide_eq_false_iff_not, not_lt]
    exact hse
  refine ⟨l, ?_, ?_, ?_, ?_, ?_⟩
  · simp [Chunking.chunkDates, hps, hl, show ¬ c = 0 by omega]
  · rw [hmap]; exact pc
  · rw [hmap]; exact pb
  · rw [hmap]; exact phl
  · rw [hmap]; exact plen

/-- C3 witness: the amended statement at a concrete small interval
(`[0, 10)`, chunk 3 → four chunks, count `⌈10/3⌉ = 4`). -/
theorem chunk_dates_props_amended_witness :
    (0 : Int) < 3 ∧
    Chunking.instant ⟨0, 0⟩ ≤ Chunking.instant ⟨10, 0⟩ ∧
    ∃ l, Chunking.chunkDates
          (Chunking.instant ⟨10, 0⟩ - Chunking.instant ⟨0, 0⟩).toNat ⟨0, 0⟩ ⟨10, 0⟩ 3 =
        .ok (some l) ∧
      List.Chain' (fun p q : Int × Int => p.2 = q.1) (Chunking.mapInstants l) ∧
      (∀ p ∈ Chunking.mapInstants l, p.1 < p.2 ∧ p.2 - p.1 ≤ 3) ∧
      (Chunking.instant ⟨0, 0⟩ < Chunking.instant ⟨10, 0⟩ →
        (Chunking.mapInstants l).head?.map Prod.fst = some (Chunking.instant ⟨0, 0⟩) ∧
        (Chunking.mapInstants l).getLast?.map Prod.snd = some (Chunking.instant ⟨10, 0⟩)) ∧
      (Chunking.mapInstants l).length =
        ((Chunking.instant ⟨10, 0⟩ - Chunking.instant ⟨0, 0⟩ + 3 - 1) / 3).toNat :=
  ⟨by decide, by decide,
    chunk_dates_props_amended ⟨0, 0⟩ ⟨10, 0⟩ 3 (by decide) (by decide) (by decide)
      (by decide) (by decide) (by decide)⟩

/-- C5: chunk-boundary computation does not always terminate. With start
9999-12-31T21:00+01:00, end 9999-12-31T23:59:59.999999+00:00 and chunk size
one day, `_saturating_add` overflows and saturates to
`datetime.max.replace(tzinfo=+01:00)`, whose instant is one hour short of
`end`; that chunk start reproduces itself (`min(saturating_add(sat, c), end)
= sat`) while the loop guard `sat < end` stays true, so `_chunk_dates` loops
forever emitting the degenerate chunk `(sat, sat)` and never produces a
final chunk ending at `end` (fuel 30 shown still running). -/
theorem chunk_dates_nontermination_cert :
    Chunking.chunkEmit 3 ⟨315537890399999999, 3600000000⟩
        ⟨315537897599999999, 0⟩ 86400000000 =
      [(⟨315537890399999999, 3600000000⟩, ⟨315537897599999999, 3600000000⟩),
        (⟨315537897599999999, 3600000000⟩, ⟨315537897599999999, 3600000000⟩),
        (⟨315537897599999999, 3600000000⟩, ⟨315537897599999999, 3600000000⟩)] ∧
    Chunking.saturatingAdd ⟨315537897599999999, 3600000000⟩ 86400000000 =
      ⟨315537897599999999, 3600000000⟩ ∧
    Chunking.pyMin
        (Chunking.saturatingAdd ⟨315537897599999999, 3600000000⟩ 86400000000)
        ⟨315537897599999999, 0⟩ = ⟨315537897599999999, 3600000000⟩ ∧
    Chunking.pyLt ⟨315537897599999999, 3600000000⟩ ⟨315537897599999999, 0⟩ = true ∧
    Chunking.pyLt ⟨315537890399999999, 3600000000⟩ ⟨315537897599999999, 0⟩ = true ∧
    Chunking.chunkLoop 30 ⟨315537890399999999, 3600000000⟩
      ⟨315537897599999999, 0⟩ 86400000000 = none := by
  decide

/-- C6 counterexample: an interval that fits in a single chunk
(`0 < end - start ≤ chunk_size`) for which the wrapper does not make exactly
one call over the original interval: start 9999-12-31T23:00+02:00, end
9999-12-31T23:59:59.999999+00:00 (3 h apart), chunk size 4 h — saturation
pins the first chunk's end below `end` and the loop keeps emitting
degenerate chunks instead of one chunk equal to the interval. -/
theorem batched_degenerate_cex :
    Chunking.chunkEmit 2 ⟨315537893999999999, 7200000000⟩
        ⟨315537897599999999, 0⟩ 14400000000 =
      [(⟨315537893999999999, 7200000000⟩, ⟨315537897599999999, 7200000000⟩),
        (⟨315537897599999999, 7200000000⟩, ⟨315537897599999999, 7200000000⟩)] ∧
    Chunking.pyLt ⟨315537893999999999, 7200000000⟩ ⟨315537897599999999, 0⟩ = true ∧
    Chunking.instant ⟨315537897599999999, 0⟩ -
        Chunking.instant ⟨315537893999999999, 7200000000⟩ ≤ 14400000000 ∧
    Chunking.instant ⟨315537897599999999, 7200000000⟩ ≠
      Chunking.instant ⟨315537897599999999, 0⟩ := by
  decide

/-- C6 amended: `start == end` (equal instants) yields zero chunks and zero
invocations of the wrapped function — the wrapper returns `[]` whatever the
wrapped function is; and an interval with `0 < end - start ≤ chunk_size`
yields exactly one chunk spanning the original interval and exactly one
invocation, provided (the proviso the code forces) `end`'s instant is
representable within `start`'s UTC offset — automatic when both share an
offset. -/
theorem batched_degenerate_amended (fuel₁ : Nat)
    (s₁ e₁ s₂ e₂ : Chunking.PyDT) (c₁ c₂ : Int)
    (h₁ : Chunking.instant s₁ = Chunking.instant e₁) (hc₁ : c₁ ≠ 0)
    (hc₂ : 0 < c₂)
    (hgap : 0 < Chunking.instant e₂ - Chunking.instant s₂)
    (hfit : Chunking.instant e₂ - Chunking.instant s₂ ≤ c₂)
    (hsmin : Chunking.dtMinNaive ≤ s₂.naive)
    (hemin : Chunking.dtMinNaive ≤ e₂.naive)
    (hemax : e₂.naive ≤ Chunking.dtMaxNaive)
    (hrep : Chunking.instant e₂ + s₂.off ≤ Chunking.dtMaxNaive) :
    Chunking.chunkDates fuel₁ s₁ e₁ c₁ = .ok (some []) ∧
    (∀ (R : Type) (f : Chunking.PyDT × Chunking.PyDT → R),
      Chunking.batchedWrapper fuel₁ s₁ e₁ c₁ f = .ok (some [])) ∧
    ∃ p, Chunking.chunkDates
          (Chunking.instant e₂ - Chunking.instant s₂).toNat s₂ e₂ c₂ =
        .ok (some [p]) ∧
      Chunking.instant p.1 = Chunking.instant s₂ ∧
      Chunking.instant p.2 = Chunking.instant e₂ ∧
      (∀ (R : Type) (f : Chunking.PyDT × Chunking.PyDT → R),
        Chunking.batchedWrapper
            (Chunking.instant e₂ - Chunking.instant s₂).toNat s₂ e₂ c₂ f =
          .ok (some [f p])) := by
  have hps₁ : Chunking.pyLt e₁ s₁ = false := by
    simp only [Chunking.pyLt, decide_eq_false_iff_not, not_lt]
    omega
  have hdone₁ : Chunking.chunkLoop fuel₁ s₁ e₁ c₁ = some [] := by
    apply Chunking.chunkLoop_done
    simp only [Chunking.pyLt, decide_eq_false_iff_not, not_lt]
    omega
  have hcd₁ : Chunking.chunkDates fuel₁ s₁ e₁ c₁ = .ok (some []) := by
    simp [Chunking.chunkDates, hps₁, hdone₁, hc₁]
  refine ⟨hcd₁, ?_, ?_⟩
  · intro R f
    simp [Chunking.batchedWrapper, hcd₁]
  · obtain ⟨l, hl, hmap⟩ := Chunking.chunkLoop_sim c₂ e₂ s₂.off hc₂ hemin hemax hrep
      (Chunking.instant e₂ - Chunking.instant s₂).toNat s₂ rfl hsmin (by omega)
      (le_refl _)
    obtain ⟨pc, pb, phl, plen⟩ := Chunking.ideal_props c₂ (Chunking.instant e₂) hc₂
      (Chunking.instant e₂ - Chunking.instant s₂).toNat (Chunking.instant s₂)
      (by omega) (le_refl _)
    have hlen1 : (Chunking.mapInstants l).length = 1 := by
      rw [hmap, plen]
      have h0 : Chunking.instant e₂ - Chunking.instant s₂ + c₂ - 1 =
          (Chunking.instant e₂ - Chunking.instant s₂ - 1) + 1 * c₂ := by ring
      rw [h0, Int.add_mul_ediv_right _ _ (by omega)]
      rw [Int.ediv_eq_zero_of_lt (by omega) (by omega)]
      rfl
    have hlen1' : l.length = 1 := by
      simpa [Chunking.mapInstants] using hlen1
    obtain ⟨p, hp⟩ := List.length_eq_one.mp hlen1'
    subst hp
    have hmap1 : Chunking.mapInstants [p] =
        [(Chunking.instant p.1, Chunking.instant p.2)] := rfl
    obtain ⟨hh, hlast⟩ := phl (by omega)
    rw [← hmap, hmap1] at hh hlast
    have hh' : Chunking.instant p.1 = Chunking.instant s₂ := by simpa using hh
    have hlast' : Chunking.instant p.2 = Chunking.instant e₂ := by simpa using hlast
    have hcd₂ : Chunking.chunkDates
        (Chunking.instant e₂ - Chunking.instant s₂).toNat s₂ e₂ c₂ = .ok (some [p]) := by
      have hps₂ : Chunking.pyLt e₂ s₂ = false := by
        simp only [Chunking.pyLt, decide_eq_false_iff_not, not_lt]
        omega
      simp [Chunking.chunkDates, hps₂, hl, show ¬ c₂ = 0 by omega]
    refine ⟨p, hcd₂, hh', hlast', ?_⟩
    intro R f
    simp [Chunking.batchedWrapper, hcd₂]

/-- C6 witness: the amended statement at concrete inputs — the degenerate
interval `[5, 5)` (no call) and the interval `[0, 7)` with chunk size 10
(one call over the whole interval). -/
theorem batched_degenerate_amended_witness :
    Chunking.instant (⟨5, 0⟩ : Chunking.PyDT) = Chunking.instant ⟨5, 0⟩ ∧
    (0 : Int) < 10 ∧
    (Chunking.chunkDates 3 ⟨5, 0⟩ ⟨5, 0⟩ 2 = .ok (some []) ∧
      (∀ (R : Type) (f : Chunking.PyDT × Chunking.PyDT → R),
        Chunking.batchedWrapper 3 ⟨5, 0⟩ ⟨5, 0⟩ 2 f = .ok (some [])) ∧
      ∃ p, Chunking.chunkDates
            (Chunking.instant ⟨7, 0⟩ - Chunking.instant ⟨0, 0⟩).toNat ⟨0, 0⟩ ⟨7, 0⟩ 10 =
          .ok (some [p]) ∧
        Chunking.instant p.1 = Chunking.instant ⟨0, 0⟩ ∧
        Chunking.instant p.2 = Chunking.instant ⟨7, 0⟩ ∧
        (∀ (R : Type) (f : Chunking.PyDT × Chunking.PyDT → R),
          Chunking.batchedWrapper
              (Chunking.instant ⟨7, 0⟩ - Chunking.instant ⟨0, 0⟩).toNat ⟨0, 0⟩ ⟨7, 0⟩ 10 f =
            .ok (some [f p]))) :=
  ⟨rfl, by decide,
    batched_degenerate_amended 3 ⟨5, 0⟩ ⟨5, 0⟩ ⟨0, 0⟩ ⟨7, 0⟩ 2 10 rfl (by decide)
      (by decide) (by decide) (by decide) (by decide) (by decide) (by decide)
      (by decide)⟩

/-- C4 counterexample: decorating with a zero or negative chunk size does
not fail at decoration time — `batched` only validates `how` — and a
negative chunk size is not rejected at call time either (`_chunk_dates` only
tests `chunk_size == timedelta(0)`): with `start < end` and chunk size −1
the call errors nowhere (the loop just walks backwards). -/
theorem batched_validation_cex :
    Chunking.batchedDecorate "json" 0 = .ok "json" ∧
    Chunking.batchedDecorate "json" (-86400000000) = .ok "json" ∧
    Chunking.chunkDates 5 ⟨5, 0⟩ ⟨8, 0⟩ (-1) = .ok none := by
  exact ⟨rfl, rfl, rfl⟩

/-- C4 amended: a batched call with `start > end` fails with
`InvalidInterval` (`ValueError`) for every possible wrapped function — i.e.
before any invocation of it — and a zero chunk size likewise fails at call
time when chunk iteration begins; but neither happens at decoration time
(decoration validates only `how`), and a negative chunk size is never
rejected. -/
theorem batched_validation_amended {R : Type} (fuel : Nat)
    (s e s₂ e₂ : Chunking.PyDT) (c c₃ : Int)
    (f g : Chunking.PyDT × Chunking.PyDT → R)
    (hse : Chunking.pyLt e s = true) (hc : c ≠ 0) :
    Chunking.batchedWrapper fuel s e c f =
      .error "start is later than or equal to end" ∧
    Chunking.batchedWrapper fuel s₂ e₂ 0 g =
      .error "chunk_size must be greater than zero" ∧
    Chunking.batchedDecorate "json" c₃ = .ok "json" ∧
    Chunking.batchedDecorate "query" c₃ = .ok "params" := by
  refine ⟨?_, ?_, rfl, rfl⟩
  · simp [Chunking.batchedWrapper, Chunking.chunkDates, hse, hc]
  · simp [Chunking.batchedWrapper, Chunking.chunkDates]

/-- C4 witness: the amended behaviour at concrete inputs. -/
theorem batched_validation_amended_witness :
    Chunking.pyLt ⟨3, 0⟩ ⟨10, 0⟩ = true ∧ (5 : Int) ≠ 0 ∧
    (Chunking.batchedWrapper 3 ⟨10, 0⟩ ⟨3, 0⟩ 5 (fun _ => (0 : Nat)) =
        .error "start is later than or equal to end" ∧
      Chunking.batchedWrapper 3 ⟨0, 0⟩ ⟨1, 0⟩ 0 (fun _ => (0 : Nat)) =
        .error "chunk_size must be greater than zero" ∧
      Chunking.batchedDecorate "json" 7 = .ok "json" ∧
      Chunking.batchedDecorate "query" 7 = .ok "params") :=
  ⟨by decide, by decide,
    batched_validation_amended 3 ⟨10, 0⟩ ⟨3, 0⟩ ⟨0, 0⟩ ⟨1, 0⟩ 5 7
      (fun _ => (0 : Nat)) (fun _ => (0 : Nat)) (by decide) (by decide)⟩

/-- C7: when the token fetch raises during a refresh, the error propagates
unchanged to the `process_request` caller and, at the moment of propagation,
the middleware state — cached token and persisted token file — is exactly
the pre-call state (the fetch is the first statement of `_refresh_token`, so
no partial update happens); a subsequent call from that same state with a
successful fetch completes the refresh and caches the new token. -/
theorem refresh_failure_state_unchanged (st : Auth.MWState) (req : Api.Dict)
    (e : String) (t : Auth.Tok) (now : Int)
    (h : Auth.needRefresh now st.tokenModel = true) :
    Auth.processRequest (.error e) now st req = .error (e, st) ∧
    ∃ st' r, Auth.processRequest (.ok t) now st req = .ok (st', r) ∧
      st'.tokenModel = some t := by
  constructor
  · simp [Auth.processRequest, h]
  · refine ⟨{ tokenModel := some t, tokenFile := st.tokenFile.map fun _ => some t },
      Auth.addAuthHeader t.token req, ?_, rfl⟩
    simp [Auth.processRequest, h]

/-- C7 witness: a first use (no cached token, no file): the failed fetch
surfaces as-is with the untouched state, and a retry with a good fetch
succeeds. -/
theorem refresh_failure_state_unchanged_witness :
    Auth.needRefresh 0 (Auth.MWState.mk none none).tokenModel = true ∧
    (Auth.processRequest (.error "boom") 0 ⟨none, none⟩ [] =
        .error ("boom", ⟨none, none⟩) ∧
      ∃ st' r, Auth.processRequest (.ok ⟨"tk", 300⟩) 0 ⟨none, none⟩ [] =
          .ok (st', r) ∧
        st'.tokenModel = some ⟨"tk", 300⟩) :=
  ⟨by decide,
    refresh_failure_state_unchanged ⟨none, none⟩ [] "boom" ⟨"tk", 300⟩ 0 (by decide)⟩

/-- C10: in both decorated GET and POST calls the call-site arguments are
overlaid on the middleware-transformed parameters by Python's top-level
`|` merge, so whenever the call site supplies a top-level `headers` mapping
(directly in `request_kwargs`, or for GET also via extra keyword arguments),
the final request's `headers` is exactly the call-site one — the
middleware-produced headers, including the Authorization header injected by
`BearerTokenMiddleware`, are replaced wholesale. -/
theorem callsite_merge_headers (ms : List Api.Middleware) (url : String)
    (glob : Api.Dict) (rkO : Option Api.Dict) (extra : Api.Dict)
    (postJson : List (String × String)) (rkP : Option Api.Dict) (h h' : Api.Val)
    (hext : Api.dictLookup (Api.dictMerge (rkO.getD []) extra) "headers" = some h)
    (hpost : Api.dictLookup (rkP.getD []) "headers" = some h') :
    Api.dictLookup (Api.wrapperGetFinal ms url glob rkO extra) "headers" = some h ∧
    Api.dictLookup (Api.wrapperPostFinal ms url glob postJson rkP) "headers" = some h' := by
  constructor
  · unfold Api.wrapperGetFinal
    exact Api.lookup_merge_right _ _ _ _ hext
  · unfold Api.wrapperPostFinal
    exact Api.lookup_merge_right _ _ _ _ hpost

/-- C10 witness: with a `BearerTokenMiddleware` (valid token `tok123`) as the
only middleware, the middleware output carries
`Authorization: Bearer tok123`, but a call-site `request_kwargs` of
`\x7b"headers": \x7b\x7d\x7d` makes the final GET and POST requests carry the
empty headers mapping — the Authorization header is dropped. -/
theorem callsite_merge_headers_witness :
    Api.dictLookup (Api.dictMerge ((some [("headers", Api.Val.vd [])]).getD [])
        ([] : Api.Dict)) "headers" = some (.vd []) ∧
    Api.dictLookup
        (Api.applyRequestMiddleware [⟨some (Auth.addAuthHeader "tok123")⟩]
          (Api.dictSetdefault
            (Api.dictSet (Api.dictSet [] "method" (.vs "GET")) "url"
              (.vs "http://api/hist"))
            "allow_redirects" (.vb true))) "headers" =
      some (.vd [("Authorization", "Bearer tok123")]) ∧
    Api.dictLookup
        (Api.wrapperGetFinal [⟨some (Auth.addAuthHeader "tok123")⟩] "http://api/hist"
          [] (some [("headers", Api.Val.vd [])]) []) "headers" = some (.vd []) ∧
    Api.dictLookup
        (Api.wrapperPostFinal [⟨some (Auth.addAuthHeader "tok123")⟩] "http://api/hist"
          [] [("id", "u")] (some [("headers", Api.Val.vd [])])) "headers" =
      some (.vd []) :=
  ⟨by decide, by decide,
    (callsite_merge_headers [⟨some (Auth.addAuthHeader "tok123")⟩] "http://api/hist"
      [] (some [("headers", Api.Val.vd [])]) [] [("id", "u")]
      (some [("headers", Api.Val.vd [])]) (.vd []) (.vd [])
      (by decide) (by decide)).1,
    (callsite_merge_headers [⟨some (Auth.addAuthHeader "tok123")⟩] "http://api/hist"
      [] (some [("headers", Api.Val.vd [])]) [] [("id", "u")]
      (some [("headers", Api.Val.vd [])]) (.vd []) (.vd [])
      (by decide) (by decide)).2⟩


namespace Persist

theorem charDigit_digitChar {d : Nat} (h : d < 10) : charDigit (digitChar d) = d := by
  interval_cases d <;> rfl

theorem isDigitChar_digitChar {d : Nat} (h : d < 10) :
    isDigitChar (digitChar d) = true := by
  interval_cases d <;> rfl

theorem natDigitsLE_digits (n : Nat) : ∀ c ∈ natDigitsLE n, isDigitChar c = true := by
  intro c hc
  simp only [natDigitsLE, List.mem_map] at hc
  obtain ⟨d, hd, rfl⟩ := hc
  exact isDigitChar_digitChar (Nat.digits_lt_base (by norm_num) hd)

theorem padNum_digits (w n : Nat) : ∀ c ∈ padNum w n, isDigitChar c = true := by
  intro c hc
  simp only [padNum, List.mem_reverse, List.mem_append, List.mem_replicate] at hc
  rcases hc with h | h
  · exact natDigitsLE_digits n c h
  · rw [h.2]; rfl

theorem natDigitsLE_length_le {w n : Nat} (h : n < 10 ^ w) :
    (natDigitsLE n).length ≤ w := by
  unfold natDigitsLE
  rw [List.length_map]
  rcases Nat.eq_zero_or_pos n with h0 | h0
  · subst h0; simp
  · rw [Nat.digits_len 10 n (by norm_num) (by omega)]
    have := (Nat.lt_pow_iff_log_lt (by norm_num) (by omega)).mp h
    omega

theorem padNum_length {w n : Nat} (h : n < 10 ^ w) : (padNum w n).length = w := by
  simp only [padNum, List.length_reverse, List.length_append, List.length_replicate]
  have := natDigitsLE_length_le h
  omega

theorem chVal_aux (l : List Nat) (hl : ∀ d ∈ l, d < 10) (a : Nat) :
    List.foldl (fun acc c => acc * 10 + charDigit c) a ((l.map digitChar).reverse) =
      a * 10 ^ l.length + Nat.ofDigits 10 l := by
  induction l generalizing a with
  | nil => simp
  | cons d t ih =>
    simp only [List.map_cons, List.reverse_cons, List.foldl_append, List.foldl_cons,
      List.foldl_nil]
    rw [ih (fun x hx => hl x (List.mem_cons_of_mem _ hx))]
    rw [charDigit_digitChar (hl d (List.mem_cons_self _ _))]
    rw [Nat.ofDigits_cons, List.length_cons, pow_succ]
    ring

theorem foldl_zero_digits (k : Nat) :
    List.foldl (fun acc c => acc * 10 + charDigit c) 0 (List.replicate k '0') = 0 := by
  induction k with
  | zero => rfl
  | succ n ih =>
    simp only [List.replicate_succ, List.foldl_cons]
    exact ih

theorem chVal_padNum {w n : Nat} (h : n < 10 ^ w) : chVal (padNum w n) = n := by
  unfold chVal padNum natDigitsLE
  rw [List.reverse_append, List.reverse_replicate, List.foldl_append, foldl_zero_digits]
  rw [chVal_aux (Nat.digits 10 n) (fun d hd => Nat.digits_lt_base (by norm_num) hd) 0]
  simp [Nat.ofDigits_digits]

theorem readFixed_pad {w n : Nat} (h : n < 10 ^ w) (rest : List Char) :
    readFixed w (padNum w n ++ rest) = some (n, rest) := by
  unfold readFixed
  have hlen := padNum_length h
  have htake : (padNum w n ++ rest).take w = padNum w n :=
    List.take_left' hlen
  have hdrop : (padNum w n ++ rest).drop w = rest :=
    List.drop_left' hlen
  rw [htake, hdrop, hlen]
  simp only [beq_self_eq_true, Bool.true_and]
  rw [List.all_eq_true.mpr (padNum_digits w n), if_pos rfl]
  rw [chVal_padNum h]

theorem expectChars_prefix (p rest : List Char) :
    expectChars p (p ++ rest) = some rest := by
  induction p with
  | nil => rfl
  | cons c t ih => simp [expectChars, ih]

theorem readUntil_exact (stop : Char) (tok rest : List Char)
    (h : ∀ c ∈ tok, ¬ c = stop) :
    readUntil stop (tok ++ stop :: rest) = some (tok, rest) := by
  induction tok with
  | nil => simp [readUntil]
  | cons c t ih =>
    simp only [List.cons_append, readUntil]
    rw [if_neg (h c (List.mem_cons_self _ _))]
    simp only [List.append_eq]
    rw [ih (fun x hx => h x (List.mem_cons_of_mem _ hx))]
    rfl

end Persist

namespace Persist

theorem expectChars_single (c : Char) (rest : List Char) :
    expectChars [c] (c :: rest) = some rest := by
  simp [expectChars]

theorem parseOffset_quote (rest : List Char) :
    parseOffset ('"' :: rest) = some (none, '"' :: rest) := rfl

theorem parseOffset_round (o : Int) (ho : o.natAbs < 6000) (rest : List Char) :
    parseOffset (offChars (some o) ++ rest) = some (some o, rest) := by
  have hdiv : o.natAbs / 60 < 10 ^ 2 := by omega
  have hmod : o.natAbs % 60 < 10 ^ 2 := by omega
  by_cases hneg : o < 0
  · have hval : -((↑(o.natAbs / 60) : Int) * 60 + ↑(o.natAbs % 60)) = o := by omega
    simp only [offChars, if_pos hneg, List.cons_append, List.append_assoc,
      List.cons_append]
    simp only [parseOffset, readFixed_pad hdiv, Option.bind_eq_bind, Option.some_bind,
      expectChars_single, readFixed_pad hmod, hval]
  · have hval : ((↑(o.natAbs / 60) : Int) * 60 + ↑(o.natAbs % 60)) = o := by omega
    simp only [offChars, if_neg hneg, List.cons_append, List.append_assoc,
      List.cons_append]
    simp only [parseOffset, readFixed_pad hdiv, Option.bind_eq_bind, Option.some_bind,
      expectChars_single, readFixed_pad hmod, hval]

end Persist

namespace Persist

set_option maxHeartbeats 1600000 in
theorem parseISODT_round (d : PyCal) (hy : d.year < 10000) (hmo : d.month < 100)
    (hda : d.day < 100) (hho : d.hour < 100) (hmi : d.minute < 100)
    (hse : d.second < 100) (hus : d.microsecond < 1000000)
    (hoff : ∀ o, d.offMinutes = some o → o.natAbs < 6000) (rest : List Char) :
    parseISODT (isoChars d ++ '"' :: rest) = some (d, '"' :: rest) := by
  obtain ⟨y, mo, da, ho, mi, se, us, off⟩ := d
  have hy' : y < 10 ^ 4 := by simpa using hy
  have hmo' : mo < 10 ^ 2 := by simpa using hmo
  have hda' : da < 10 ^ 2 := by simpa using hda
  have hho' : ho < 10 ^ 2 := by simpa using hho
  have hmi' : mi < 10 ^ 2 := by simpa using hmi
  have hse' : se < 10 ^ 2 := by simpa using hse
  have hus' : us < 10 ^ 6 := by simpa using hus
  simp only [isoChars, List.append_assoc, List.cons_append]
  simp only [parseISODT, Option.bind_eq_bind]
  rw [readFixed_pad hy']
  simp only [Option.some_bind]
  rw [expectChars_single]
  simp only [Option.some_bind]
  rw [readFixed_pad hmo']
  simp only [Option.some_bind]
  rw [expectChars_single]
  simp only [Option.some_bind]
  rw [readFixed_pad hda']
  simp only [Option.some_bind]
  rw [expectChars_single]
  simp only [Option.some_bind]
  rw [readFixed_pad hho']
  simp only [Option.some_bind]
  rw [expectChars_single]
  simp only [Option.some_bind]
  rw [readFixed_pad hmi']
  simp only [Option.some_bind]
  rw [expectChars_single]
  simp only [Option.some_bind]
  rw [readFixed_pad hse']
  simp only [Option.some_bind]
  rw [expectChars_single]
  simp only [Option.some_bind]
  rw [readFixed_pad hus']
  simp only [Option.some_bind]
  cases off with
  | none =>
    simp only [offChars, List.nil_append]
    rw [parseOffset_quote]
    simp only [Option.some_bind]
  | some o =>
    rw [parseOffset_round o (hoff o rfl)]
    simp only [Option.some_bind]

end Persist


set_option maxHeartbeats 1600000 in
/-- C9: serializing a `BaseAuthToken` to the persistence file
(`model_dump_json` written by `_refresh_token`) and reloading it
(`BaseAuthToken.from_file` / `model_validate_json`) yields a token equal to
the original: the same token string and the same `valid_until` calendar
fields including the UTC offset (hence the same instant), for every token
whose fields are in Python's `datetime` ranges and whose token string
contains no quote character. -/
theorem token_persistence_roundtrip (t : Persist.BaseAuthToken)
    (htok : ∀ c ∈ t.token.data, ¬ c = '"')
    (hy : t.valid_until.year < 10000) (hmo : t.valid_until.month < 100)
    (hda : t.valid_until.day < 100) (hho : t.valid_until.hour < 100)
    (hmi : t.valid_until.minute < 100) (hse : t.valid_until.second < 100)
    (hus : t.valid_until.microsecond < 1000000)
    (hoff : ∀ o, t.valid_until.offMinutes = some o → o.natAbs < 6000) :
    Persist.parseTokenChars (Persist.dumpTokenChars t) = some t := by
  obtain ⟨⟨tokData⟩, vu⟩ := t
  simp only at htok hy hmo hda hho hmi hse hus hoff
  simp only [Persist.dumpTokenChars, Persist.parseTokenChars, Option.bind_eq_bind,
    List.append_assoc]
  rw [Persist.expectChars_prefix]
  simp only [Option.some_bind]
  rw [Persist.readUntil_exact '"' tokData _ htok]
  simp only [Option.some_bind]
  rw [Persist.expectChars_prefix]
  simp only [Option.some_bind]
  simp only [Persist.jsonTail]
  rw [Persist.parseISODT_round vu hy hmo hda hho hmi hse hus hoff [Persist.jsonClose]]
  simp only [Option.some_bind]
  have hclose : Persist.expectChars ['"', Persist.jsonClose]
      ['"', Persist.jsonClose] = some [] := by
    simp [Persist.expectChars]
  rw [hclose]
  simp only [Option.some_bind]

/-- C9 witness: a concrete token (`ab-1`, valid until
2024-05-06T07:08:09.000010+02:00) survives the dump/parse round trip. -/
theorem token_persistence_roundtrip_witness :
    (∀ c ∈ ("ab-1" : String).data, ¬ c = '"') ∧
    Persist.parseTokenChars
        (Persist.dumpTokenChars ⟨"ab-1", ⟨2024, 5, 6, 7, 8, 9, 10, some 120⟩⟩) =
      some ⟨"ab-1", ⟨2024, 5, 6, 7, 8, 9, 10, some 120⟩⟩ :=
  ⟨by decide,
    token_persistence_roundtrip ⟨"ab-1", ⟨2024, 5, 6, 7, 8, 9, 10, some 120⟩⟩
      (by decide) (by decide) (by decide) (by decide) (by decide) (by decide)
      (by decide) (by decide)
      (by intro o ho; injection ho with h; subst h; decide)⟩
